import Mathlib

/-!
Verification development for the `fansly-downloader-ng` web-utilities module
(`utils/web.py`).

The module's pure logic is shallowly embedded below.  The Python standard
library routines it calls (`urllib.parse.urlparse`, `urllib.parse.parse_qs`)
are modelled after CPython 3.11 `urllib/parse.py` with their default
arguments (`allow_fragments=True`, `keep_blank_values=False`,
`strict_parsing=False`, `separator='&'`, `encoding='utf-8'`,
`errors='replace'`).  Scope notes:
* the bracketed-IPv6-host validation and the non-ASCII netloc check of
  `urlsplit` (which raise `ValueError`) are outside the model; modelled URLs
  are ASCII without bracketed hosts;
* UTF-8 `errors='replace'` decoding of percent-decoded bytes is modelled
  with the standard maximal-subpart replacement rule.
HTTP calls performed by the two remote fetchers are modelled by passing the
transport outcome (a response object or a raised exception) as an argument.
`platform.system()` is likewise an explicit `os_name` argument.
-/

set_option maxHeartbeats 1000000

namespace FanslyWeb

/-- Characters legal in a URL scheme (`urllib.parse.scheme_chars`):
ASCII letters, digits and `+`, `-`, `.`. -/
def schemeChar (c : Char) : Bool :=
  c.isAlpha || c.isDigit || c == '+' || c == '-' || c == '.'

/-- Python `str.find(c)` on a character list: index of the first occurrence. -/
def pyFind (c : Char) : List Char → Option Nat
  | [] => none
  | a :: as => if a == c then some 0 else (pyFind c as).map (· + 1)

/-- Python `str.rfind(c)`: index of the last occurrence. -/
def pyRfind (c : Char) : List Char → Option Nat
  | [] => none
  | a :: as =>
    match pyRfind c as with
    | some i => some (i + 1)
    | none => if a == c then some 0 else none

/-- Python `str.split(sep)` (unlimited splits, empty pieces kept). -/
def pySplitOn (sep : Char) : List Char → List (List Char)
  | [] => [[]]
  | c :: cs =>
    let r := pySplitOn sep cs
    if c == sep then [] :: r
    else (c :: r.headD []) :: r.tail

/-- Python `needle in haystack`: contiguous-substring test. -/
def containsSub : List Char → List Char → Bool
  | [], needle => needle.isEmpty
  | h :: t, needle => needle.isPrefixOf (h :: t) || containsSub t needle

/-- Python `s.split(c, 1)` as used by `urlsplit`: when `c` occurs, the parts
before and after its first occurrence; otherwise `(s, '')`. -/
def splitOnceAt (c : Char) (cs : List Char) : List Char × List Char :=
  match pyFind c cs with
  | some i => (cs.take i, cs.drop (i + 1))
  | none => (cs, [])

/-- Value of one hexadecimal digit character (both cases), as in
`urllib.parse._hextobyte`. -/
def hexDigitVal (c : Char) : Option Nat :=
  if c.isDigit then some (c.toNat - 48)
  else if 97 ≤ c.toNat ∧ c.toNat ≤ 102 then some (c.toNat - 87)
  else if 65 ≤ c.toNat ∧ c.toNat ≤ 70 then some (c.toNat - 55)
  else none

/-- Is a byte a UTF-8 continuation byte (0x80–0xBF)? -/
def utf8Cont (b : Nat) : Bool := 128 ≤ b && b ≤ 191

/-- Lower bound for the second byte of a three-byte UTF-8 sequence. -/
def utf8Cont2Lo (b : Nat) : Nat := if b = 224 then 160 else 128

/-- Upper bound for the second byte of a three-byte UTF-8 sequence. -/
def utf8Cont2Hi (b : Nat) : Nat := if b = 237 then 159 else 191

/-- Lower bound for the second byte of a four-byte UTF-8 sequence. -/
def utf8Cont3Lo (b : Nat) : Nat := if b = 240 then 144 else 128

/-- Upper bound for the second byte of a four-byte UTF-8 sequence. -/
def utf8Cont3Hi (b : Nat) : Nat := if b = 244 then 143 else 191

/-- UTF-8 decoding with `errors='replace'`: each maximal invalid subpart
becomes one U+FFFD replacement character. -/
def utf8DecodeReplace : List Nat → List Char
  | [] => []
  | b :: rest =>
    if b < 128 then Char.ofNat b :: utf8DecodeReplace rest
    else if 194 ≤ b ∧ b ≤ 223 then
      match rest with
      | [] => ['�']
      | b2 :: rest2 =>
        if utf8Cont b2 then
          Char.ofNat ((b - 192) * 64 + (b2 - 128)) :: utf8DecodeReplace rest2
        else '�' :: utf8DecodeReplace (b2 :: rest2)
    else if 224 ≤ b ∧ b ≤ 239 then
      match rest with
      | [] => ['�']
      | b2 :: rest2 =>
        if utf8Cont2Lo b ≤ b2 ∧ b2 ≤ utf8Cont2Hi b then
          match rest2 with
          | [] => ['�']
          | b3 :: rest3 =>
            if utf8Cont b3 then
              Char.ofNat ((b - 224) * 4096 + (b2 - 128) * 64 + (b3 - 128)) ::
                utf8DecodeReplace rest3
            else '�' :: utf8DecodeReplace (b3 :: rest3)
        else '�' :: utf8DecodeReplace (b2 :: rest2)
    else if 240 ≤ b ∧ b ≤ 244 then
      match rest with
      | [] => ['�']
      | b2 :: rest2 =>
        if utf8Cont3Lo b ≤ b2 ∧ b2 ≤ utf8Cont3Hi b then
          match rest2 with
          | [] => ['�']
          | b3 :: rest3 =>
            if utf8Cont b3 then
              match rest3 with
              | [] => ['�']
              | b4 :: rest4 =>
                if utf8Cont b4 then
                  Char.ofNat
                    ((b - 240) * 262144 + (b2 - 128) * 4096 + (b3 - 128) * 64 + (b4 - 128)) ::
                    utf8DecodeReplace rest4
                else '�' :: utf8DecodeReplace (b4 :: rest4)
            else '�' :: utf8DecodeReplace (b3 :: rest3)
        else '�' :: utf8DecodeReplace (b2 :: rest2)
    else '�' :: utf8DecodeReplace rest

/-- A token produced while scanning a percent-encoded string: either a plain
character or a decoded byte from a `%XX` escape. -/
inductive QuoteTok where
  | ch (c : Char)
  | byte (b : Nat)
deriving Repr, DecidableEq

/-- Scan for `%XX` escapes as `urllib.parse.unquote` does: a `%` followed by
two hex digits yields a byte, any other `%` stays literal. -/
def unquoteTokens : List Char → List QuoteTok
  | [] => []
  | '%' :: a :: b :: rest =>
    match hexDigitVal a, hexDigitVal b with
    | some x, some y => .byte (16 * x + y) :: unquoteTokens rest
    | _, _ => .ch '%' :: unquoteTokens (a :: b :: rest)
  | '%' :: rest => .ch '%' :: unquoteTokens rest
  | c :: rest => .ch c :: unquoteTokens rest

/-- Group a token list into maximal runs of decoded bytes and single plain
characters, preserving order. -/
def groupTokens : List QuoteTok → List (List Nat ⊕ Char)
  | [] => []
  | .ch c :: rest => Sum.inr c :: groupTokens rest
  | .byte b :: rest =>
    match groupTokens rest with
    | Sum.inl bs :: out => Sum.inl (b :: bs) :: out
    | out => Sum.inl [b] :: out

/-- Decode a token list: maximal byte runs are UTF-8 decoded together
(with replacement), as `unquote` does. -/
def tokensDecode (ts : List QuoteTok) : List Char :=
  ((groupTokens ts).map (fun g =>
    match g with
    | Sum.inl bs => utf8DecodeReplace bs
    | Sum.inr c => [c])).flatten

/-- Python `urllib.parse.unquote` with the default UTF-8/replace decoding. -/
def pyUnquote (cs : List Char) : List Char := tokensDecode (unquoteTokens cs)

/-- Python `unquote_plus` as applied inside `parse_qsl`: `+` becomes a space, then
percent-escapes are decoded. -/
def unquote_plus (cs : List Char) : String :=
  String.mk (pyUnquote (cs.map (fun c => if c = '+' then ' ' else c)))

/-- One `name=value` field of a query string, as handled by
`urllib.parse.parse_qsl` with default arguments: empty fields, fields
without `=` and fields with an empty value are dropped. -/
def qslPair (field : List Char) : Option (String × String) :=
  if field.isEmpty then none
  else
    match pyFind '=' field with
    | none => none
    | some i =>
      let name := field.take i
      let value := field.drop (i + 1)
      if value.isEmpty then none
      else some (unquote_plus name, unquote_plus value)

/-- Python `urllib.parse.parse_qsl` with default arguments. -/
def parse_qsl (qs : String) : List (String × String) :=
  (if qs.data.isEmpty then [] else pySplitOn '&' qs.data).filterMap qslPair

/-- The lookup `parse_qs(qs).get(key, ...)` performed by `get_qs_value`:
`parse_qs` groups the `parse_qsl` pairs by key, preserving value order;
a key is present iff some pair carries it, and then its value list is
non-empty by construction. -/
def parse_qs_get (pairs : List (String × String)) (key : String) : Option (List String) :=
  let vs := (pairs.filter (fun p => p.1 == key)).map (fun p => p.2)
  if vs.isEmpty then none else some vs

/-- Result of `urllib.parse.urlsplit`. -/
structure SplitResult where
  scheme : String
  netloc : String
  path : String
  query : String
  fragment : String
deriving Repr, DecidableEq

/-- Characters that end the netloc in `urlsplit._splitnetloc`. -/
def notNetlocDelim (c : Char) : Bool := !(c == '/' || c == '?' || c == '#')

/-- The sanitisation `urlsplit` performs first: strip leading
C0-control/space characters (`_WHATWG_C0_CONTROL_OR_SPACE`), then remove
every tab, CR and LF (`_UNSAFE_URL_BYTES_TO_REMOVE`). -/
def stripUnsafe (cs : List Char) : List Char :=
  (cs.dropWhile (fun c => c.toNat ≤ 32)).filter
    (fun c => !(c == '\t' || c == '\r' || c == '\n'))

/-- The scheme detection of `urlsplit`: when the text before the first `:`
is non-empty, starts with an ASCII letter and uses only scheme characters,
it is the (lower-cased) scheme; otherwise there is no scheme. -/
def splitScheme (cs : List Char) : List Char × List Char :=
  match pyFind ':' cs with
  | some i =>
    if 0 < i ∧ (cs.headD ' ').isAlpha = true ∧ (cs.take i).all schemeChar = true then
      ((cs.take i).map Char.toLower, cs.drop (i + 1))
    else ([], cs)
  | none => ([], cs)

/-- Python `urlsplit._splitnetloc`: after a leading `//`, the netloc runs to the
first `/`, `?` or `#`. -/
def splitNetloc (cs : List Char) : List Char × List Char :=
  match cs with
  | '/' :: '/' :: rest =>
    let nl := rest.takeWhile notNetlocDelim
    (nl, rest.drop nl.length)
  | other => ([], other)

/-- Python `urllib.parse.urlsplit` (CPython 3.11, `allow_fragments=True`):
sanitise, split off the scheme, then the `//…` netloc, then the fragment
after the first `#`, and finally the query after the first `?`. -/
def urlsplit (url : String) : SplitResult :=
  let cs0 := stripUnsafe url.data
  let p1 := splitScheme cs0
  let p2 := splitNetloc p1.2
  let p3 := splitOnceAt '#' p2.2
  let p4 := splitOnceAt '?' p3.1
  ⟨String.mk p1.1, String.mk p2.1, String.mk p4.1, String.mk p4.2, String.mk p3.2⟩

/-- Result of `urllib.parse.urlparse`. -/
structure ParseResult where
  scheme : String
  netloc : String
  path : String
  params : String
  query : String
  fragment : String
deriving Repr, DecidableEq

/-- Python `urllib.parse.uses_params`. -/
def uses_params : List String :=
  ["", "ftp", "hdl", "prospero", "http", "imap", "https", "shttp", "rtsp",
   "rtspu", "sip", "sips", "mms", "sftp", "tel"]

/-- Python `urllib.parse._splitparams`: split `;params` off the last path segment. -/
def splitparams (path : List Char) : List Char × List Char :=
  let iOpt :=
    if path.contains '/' then
      match pyRfind '/' path with
      | some j =>
        match pyFind ';' (path.drop j) with
        | some k => some (j + k)
        | none => none
      | none => none
    else pyFind ';' path
  match iOpt with
  | some i => (path.take i, path.drop (i + 1))
  | none => (path, [])

/-- Python `urllib.parse.urlparse`: `urlsplit` plus parameter splitting for schemes
in `uses_params`. -/
def urlparse (url : String) : ParseResult :=
  let s := urlsplit url
  let pp :=
    if s.scheme ∈ uses_params ∧ s.path.data.contains ';' = true then
      splitparams s.path.data
    else (s.path.data, [])
  ⟨s.scheme, s.netloc, String.mk pp.1, String.mk pp.2, s.query, s.fragment⟩

/-! ## The functions of `utils/web.py` -/

/-- Function `get_file_name_from_url`: the last `/`-separated part of the parsed
URL's path. -/
def get_file_name_from_url (url : String) : String :=
  let parsed_url := urlparse url
  let last_part := (pySplitOn '/' parsed_url.path.data).getLastD []
  String.mk last_part

/-- Function `get_qs_value(url, key, default)`.  The three Python outcomes are kept
apart: `Sum.inr default` is the `result is default` early return (the very
`default` object), `Sum.inl none` is the `None` returned when the value
list is empty, and `Sum.inl (some v)` is `result[0]`. -/
def get_qs_value {α : Type} (url : String) (key : String) (default : α) :
    Option String ⊕ α :=
  let parsed_url := urlparse url
  let qs := parsed_url.query
  let parsed_qs := parse_qsl qs
  match parse_qs_get parsed_qs key with
  | Option.none => Sum.inr default
  | some result =>
    if result.length = 0 then Sum.inl Option.none
    else Sum.inl (some (result.headD ""))

/-- The named tuple returned by `split_url`. -/
structure SplitURL where
  base_url : String
  file_url : String
deriving Repr, DecidableEq

/-- Function `split_url`: `file_url` is `scheme://netloc + path` and `base_url` is
`file_url.rsplit('/', 1)[0]`. -/
def split_url (url : String) : SplitURL :=
  let parsed_url := urlparse url
  let file_url := parsed_url.scheme ++ "://" ++ parsed_url.netloc ++ parsed_url.path
  let base_url :=
    match pyRfind '/' file_url.data with
    | some i => String.mk (file_url.data.take i)
    | none => file_url
  ⟨base_url, file_url⟩

/-- Character class of `re` pattern `[\d.]`. -/
def isVersionChar (c : Char) : Bool := c.isDigit || c == '.'

/-- Character class of `re` pattern `[\d_.]`. -/
def isMacVersionChar (c : Char) : Bool := c.isDigit || c == '_' || c == '.'

/-- Python `re.search` for the patterns used by `guess_user_agent`, all of the form
`literal ++ ([class]+)`: the captured group at the leftmost position where
the literal is followed by at least one class character, taken greedily. -/
def reSearchLitRun (lit : List Char) (cls : Char → Bool) : List Char → Option (List Char)
  | [] => none
  | c :: cs =>
    if lit.isPrefixOf (c :: cs) then
      let run := ((c :: cs).drop lit.length).takeWhile cls
      if run.isEmpty then reSearchLitRun lit cls cs else some run
    else reSearchLitRun lit cls cs

/-- The Windows branch test of `guess_user_agent`: browser token present,
`"Windows"` present, and the `Windows NT ([\d.]+)` capture reappears in the
candidate. -/
def windowsUAMatch (browser : String) (ua : String) : Bool :=
  containsSub ua.data browser.data && containsSub ua.data "Windows".data &&
    match reSearchLitRun "Windows NT ".data isVersionChar ua.data with
    | some run => containsSub ua.data run
    | none => false

/-- The Darwin branch test of `guess_user_agent`: browser token present,
`"Macintosh"` present, and the `Mac OS X ([\d_.]+)` capture — with
underscores replaced by dots — reappears in the candidate. -/
def darwinUAMatch (browser : String) (ua : String) : Bool :=
  containsSub ua.data browser.data && containsSub ua.data "Macintosh".data &&
    match reSearchLitRun "Mac OS X ".data isMacVersionChar ua.data with
    | some run => containsSub ua.data (run.map (fun c => if c = '_' then '.' else c))
    | none => false

/-- The Linux branch test of `guess_user_agent`: browser token present,
`"Linux"` present, and the `Linux ([\d.]+)` capture reappears in the
candidate. -/
def linuxUAMatch (browser : String) (ua : String) : Bool :=
  containsSub ua.data browser.data && containsSub ua.data "Linux".data &&
    match reSearchLitRun "Linux ".data isVersionChar ua.data with
    | some run => containsSub ua.data run
    | none => false

/-- Function `guess_user_agent(user_agents, based_on_browser, default_ua)`.  The host
OS (`platform.system()`) is the explicit `os_name` argument; iterating the
`user_agents` dict yields its keys in insertion order, modelled as a list.
The `try`/`except` around the scanning loops cannot fire on string inputs
(`re.search` on a string does not raise), so the function is total. -/
def guess_user_agent (user_agents : List String) (based_on_browser : String)
    (default_ua : String) (os_name : String) : String :=
  let browser := if based_on_browser = "Microsoft Edge" then "Edg" else based_on_browser
  let matched : Option String :=
    if os_name = "Windows" then user_agents.find? (windowsUAMatch browser)
    else if os_name = "Darwin" then user_agents.find? (darwinUAMatch browser)
    else if os_name = "Linux" then user_agents.find? (linuxUAMatch browser)
    else none
  match matched with
  | some ua => ua
  | none => default_ua

/-! ## The remote fetchers -/

/-- A Python exception, as far as the two fetchers can observe one. -/
inductive PyExc where
  | transport (msg : String)
  | httpError (status : Nat)
  | jsonDecode
  | keyError (key : String)
  | typeError
deriving Repr, DecidableEq

/-- A JSON value, as returned by `response.json()`. -/
inductive Json where
  | null
  | bool (b : Bool)
  | num (n : Int)
  | str (s : String)
  | arr (elems : List Json)
  | obj (fields : List (String × Json))

/-- Python `d[key]` on a decoded JSON document: `KeyError` when the key is
missing, `TypeError` when the value is not an object. -/
def Json.getItem (j : Json) (key : String) : Except PyExc Json :=
  match j with
  | .obj fields =>
    match fields.find? (fun kv => kv.1 == key) with
    | some kv => .ok kv.2
    | none => .error (.keyError key)
  | _ => .error (.typeError)

/-- Python truthiness of a JSON value (`if account_username:`). -/
def Json.truthy : Json → Bool
  | .null => false
  | .bool b => b
  | .num n => n != 0
  | .str s => !s.isEmpty
  | .arr elems => !elems.isEmpty
  | .obj fields => !fields.isEmpty

/-- A `requests` response: its status code and the outcome of `.json()`
(which raises on an undecodable body). -/
structure PyResponse where
  status_code : Nat
  jsonBody : Except PyExc Json

/-- Function `get_fansly_account_for_token`.  The `requests.get` call is modelled by
the `me_req` argument: either a response or a raised transport exception.
No `try` block exists in the source, so every raise propagates. -/
def get_fansly_account_for_token (me_req : Except PyExc PyResponse) :
    Except PyExc (Option Json) :=
  match me_req with
  | .error e => .error e
  | .ok r =>
    if r.status_code = 200 then
      match r.jsonBody with
      | .error e => .error e
      | .ok body =>
        match body.getItem "response" with
        | .error e => .error e
        | .ok resp =>
          match resp.getItem "account" with
          | .error e => .error e
          | .ok acct =>
            match acct.getItem "username" with
            | .error e => .error e
            | .ok account_username =>
              if account_username.truthy then .ok (some account_username)
              else .ok Option.none
    else .ok Option.none

/-- Python `requests.Response.raise_for_status`: raises `HTTPError` exactly for
status codes 400–599. -/
def raise_for_status (r : PyResponse) : Except PyExc Unit :=
  if 400 ≤ r.status_code ∧ r.status_code < 600 then .error (.httpError r.status_code)
  else .ok ()

/-- Function `get_release_info_from_github`.  The `try` block covers the GET and
`raise_for_status`; `response.json()` sits outside it, so a JSON decoding
failure on a 200 response propagates. -/
def get_release_info_from_github (response : Except PyExc PyResponse) :
    Except PyExc (Option Json) :=
  match response with
  | .error _ => .ok Option.none
  | .ok r =>
    match raise_for_status r with
    | .error _ => .ok Option.none
    | .ok _ =>
      if r.status_code ≠ 200 then .ok Option.none
      else
        match r.jsonBody with
        | .ok j => .ok (some j)
        | .error e => .error e

/-! ## Spec-side definition -/

/-- Characters that may not occur in the path of a scheme-authority-path
URL. -/
def notQueryFragChar (c : Char) : Bool := !(c == '?' || c == '#')

/-- Modelled from the spec: "valid absolute URL strings (scheme + authority
+ path only)" — the string is `scheme://authority/path` where the scheme is
non-empty, starts with a letter and uses only scheme characters, the
authority is non-empty and free of `/?#`, and the path is empty or starts
with `/` and contains no query or fragment delimiter. -/
def isSchemeAuthorityPathUrl (u : String) : Bool :=
  match pyFind ':' u.data with
  | none => false
  | some i =>
    let s := u.data.take i
    (!s.isEmpty) && (s.headD ' ').isAlpha && s.all schemeChar &&
      (match u.data.drop i with
       | ':' :: '/' :: '/' :: r =>
         let auth := r.takeWhile notNetlocDelim
         (!auth.isEmpty) && (r.drop auth.length).all notQueryFragChar
       | _ => false)

/-! ## Character-level facts -/

theorem schemeChar_ne (c : Char) (h : schemeChar c = true) :
    c ≠ ':' ∧ c ≠ '\t' ∧ c ≠ '\r' ∧ c ≠ '\n' ∧ c ≠ '/' ∧ c ≠ '?' ∧ c ≠ '#' := by
  refine ⟨?_, ?_, ?_, ?_, ?_, ?_, ?_⟩ <;> (rintro rfl; exact absurd h (by decide))

theorem isAlpha_not_le32 (c : Char) (h : c.isAlpha = true) : ¬ (c.toNat ≤ 32) := by
  simp only [Char.isAlpha, Char.isUpper, Char.isLower, Bool.or_eq_true,
    Bool.and_eq_true, decide_eq_true_eq] at h
  have h65 : (65 : UInt32).toNat = 65 := by decide
  have h97 : (97 : UInt32).toNat = 97 := by decide
  rcases h with ⟨h1, _⟩ | ⟨h1, _⟩ <;>
    (have : (65 : Nat) ≤ c.toNat ∨ (97 : Nat) ≤ c.toNat := by
      first
      | exact Or.inl (h65 ▸ (h1 : (65 : UInt32) ≤ c.val))
      | exact Or.inr (h97 ▸ (h1 : (97 : UInt32) ≤ c.val))
     omega)

theorem toLower_isAlpha (c : Char) (h : c.isAlpha = true) : c.toLower.isAlpha = true := by
  unfold Char.toLower
  dsimp only
  split
  · rename_i hcond
    obtain ⟨h1, h2⟩ := hcond
    generalize c.toNat = n at h1 h2
    interval_cases n <;> decide
  · exact h

theorem toLower_schemeChar (c : Char) (h : schemeChar c = true) :
    schemeChar c.toLower = true := by
  unfold Char.toLower
  dsimp only
  split
  · rename_i hcond
    obtain ⟨h1, h2⟩ := hcond
    generalize c.toNat = n at h1 h2
    interval_cases n <;> decide
  · exact h

/-! ## Facts about the list primitives -/

theorem pyFind_eq_none_iff (c : Char) (cs : List Char) :
    pyFind c cs = none ↔ ∀ a ∈ cs, a ≠ c := by
  induction cs with
  | nil => simp [pyFind]
  | cons a as ih =>
    by_cases hac : a = c
    · subst hac
      simp [pyFind]
    · have : (a == c) = false := beq_false_of_ne hac
      simp only [pyFind, this, Bool.false_eq_true, if_false, Option.map_eq_none',
        List.mem_cons]
      constructor
      · intro hnone x hx
        rcases hx with rfl | hx
        · exact hac
        · exact (ih.mp hnone) x hx
      · intro hall
        exact ih.mpr (fun x hx => hall x (Or.inr hx))

theorem pyFind_append_not_mem (c : Char) (xs ys : List Char)
    (h : ∀ a ∈ xs, a ≠ c) :
    pyFind c (xs ++ ys) = (pyFind c ys).map (xs.length + ·) := by
  induction xs with
  | nil => simp
  | cons a as ih =>
    have ha : (a == c) = false := beq_false_of_ne (h a (List.mem_cons_self a as))
    have ih2 := ih (fun x hx => h x (List.mem_cons_of_mem a hx))
    rw [List.cons_append]
    have hstep : pyFind c (a :: (as ++ ys)) = (pyFind c (as ++ ys)).map (· + 1) := by
      simp [pyFind, ha]
    rw [hstep, ih2]
    cases pyFind c ys with
    | none => rfl
    | some i =>
      simp only [Option.map_some', Option.some.injEq, List.length_cons]
      omega

theorem pyFind_append_cons (c : Char) (xs ys : List Char)
    (h : ∀ a ∈ xs, a ≠ c) :
    pyFind c (xs ++ c :: ys) = some xs.length := by
  rw [pyFind_append_not_mem c xs (c :: ys) h]
  simp [pyFind]

theorem pyFind_take_ne (c : Char) (cs : List Char) (i : Nat)
    (h : pyFind c cs = some i) : ∀ a ∈ cs.take i, a ≠ c := by
  induction cs generalizing i with
  | nil => simp [pyFind] at h
  | cons a as ih =>
    by_cases hac : a = c
    · subst hac
      simp [pyFind] at h
      subst h
      simp
    · have : (a == c) = false := beq_false_of_ne hac
      simp only [pyFind, this, Bool.false_eq_true, if_false] at h
      cases hfind : pyFind c as with
      | none => rw [hfind] at h; simp at h
      | some j =>
        rw [hfind] at h
        simp at h
        subst h
        intro x hx
        simp only [List.take_succ_cons, List.mem_cons] at hx
        rcases hx with rfl | hx
        · exact hac
        · exact ih j hfind x hx

theorem pyRfind_eq_none_iff (c : Char) (cs : List Char) :
    pyRfind c cs = none ↔ ∀ a ∈ cs, a ≠ c := by
  induction cs with
  | nil => simp [pyRfind]
  | cons a as ih =>
    simp only [pyRfind]
    cases hr : pyRfind c as with
    | some i =>
      constructor
      · intro h; exact absurd h (by simp)
      · intro hall
        have hnone : pyRfind c as = none :=
          ih.mpr (fun x hx => hall x (List.mem_cons_of_mem a hx))
        rw [hnone] at hr
        exact absurd hr (by simp)
    | none =>
      by_cases hac : a = c
      · subst hac
        simp only [beq_self_eq_true, if_true]
        constructor
        · intro h; exact absurd h (by simp)
        · intro hall
          exact absurd rfl (hall a (List.mem_cons_self a as))
      · have hb : (a == c) = false := beq_false_of_ne hac
        simp only [hb, Bool.false_eq_true, if_false]
        constructor
        · intro _ x hx
          rcases (List.mem_cons.mp hx) with rfl | hx2
          · exact hac
          · exact ih.mp hr x hx2
        · intro _; trivial

theorem pyRfind_append_some (c : Char) (xs ys : List Char) (i : Nat)
    (h : pyRfind c ys = some i) :
    pyRfind c (xs ++ ys) = some (xs.length + i) := by
  induction xs with
  | nil => simpa using h
  | cons a as ih =>
    rw [List.cons_append]
    have hstep : pyRfind c (a :: (as ++ ys)) = some (as.length + i + 1) := by
      simp only [pyRfind, ih]
    rw [hstep]
    simp only [List.length_cons, Option.some.injEq]
    omega

theorem pyRfind_decomp (c : Char) (cs : List Char) (i : Nat)
    (h : pyRfind c cs = some i) :
    cs = cs.take i ++ c :: cs.drop (i + 1) ∧ ∀ a ∈ cs.drop (i + 1), a ≠ c := by
  induction cs generalizing i with
  | nil => simp [pyRfind] at h
  | cons a as ih =>
    simp only [pyRfind] at h
    cases hr : pyRfind c as with
    | some j =>
      rw [hr] at h
      simp only [Option.some.injEq] at h
      subst h
      obtain ⟨hdec, hafter⟩ := ih j hr
      refine ⟨?_, ?_⟩
      · conv_lhs => rw [show a :: as = a :: (as.take j ++ c :: as.drop (j + 1)) from by rw [← hdec]]
        simp [List.take_succ_cons, List.drop_succ_cons]
      · intro x hx
        simp only [List.drop_succ_cons] at hx
        exact hafter x hx
    | none =>
      rw [hr] at h
      by_cases hac : a = c
      · subst hac
        simp only [beq_self_eq_true, if_true, Option.some.injEq] at h
        subst h
        simp only [List.take_zero, List.nil_append, List.drop_succ_cons, List.drop_zero]
        exact ⟨by simp, (pyRfind_eq_none_iff _ as).mp hr⟩
      · have hb : (a == c) = false := beq_false_of_ne hac
        rw [hb] at h
        simp at h

theorem pyRfind_isSome_of_mem (c : Char) (cs : List Char) (h : c ∈ cs) :
    ∃ i, pyRfind c cs = some i := by
  cases hr : pyRfind c cs with
  | none => exact absurd rfl ((pyRfind_eq_none_iff c cs).mp hr c h)
  | some i => exact ⟨i, rfl⟩

theorem splitOnceAt_of_not_mem (c : Char) (cs : List Char)
    (h : ∀ a ∈ cs, a ≠ c) : splitOnceAt c cs = (cs, []) := by
  unfold splitOnceAt
  rw [(pyFind_eq_none_iff c cs).mpr h]

theorem splitOnceAt_fst_cons (c a : Char) (t : List Char) (h : a ≠ c) :
    (splitOnceAt c (a :: t)).1 = a :: (splitOnceAt c t).1 := by
  have hb : (a == c) = false := beq_false_of_ne h
  unfold splitOnceAt
  simp only [pyFind, hb, Bool.false_eq_true, if_false]
  cases pyFind c t with
  | none => simp
  | some i => simp

theorem splitOnceAt_fst_not_mem (c : Char) (cs : List Char) :
    ∀ a ∈ (splitOnceAt c cs).1, a ≠ c := by
  unfold splitOnceAt
  cases hfind : pyFind c cs with
  | none => exact (pyFind_eq_none_iff c cs).mp hfind
  | some i => exact pyFind_take_ne c cs i hfind

theorem splitOnceAt_fst_subset (c : Char) (cs : List Char) :
    ∀ a ∈ (splitOnceAt c cs).1, a ∈ cs := by
  unfold splitOnceAt
  cases pyFind c cs with
  | none => intro a ha; exact ha
  | some i => intro a ha; exact List.take_subset i cs ha

theorem takeWhile_all (p : Char → Bool) (xs : List Char)
    (h : ∀ a ∈ xs, p a = true) : xs.takeWhile p = xs := by
  induction xs with
  | nil => rfl
  | cons a as ih =>
    have h1 := h a (List.mem_cons_self a as)
    have h2 := ih (fun x hx => h x (List.mem_cons_of_mem a hx))
    simp [List.takeWhile_cons, h1, h2]

theorem takeWhile_append_stop (p : Char → Bool) (xs ys : List Char) (y : Char)
    (hall : ∀ a ∈ xs, p a = true) (hy : p y = false) :
    (xs ++ y :: ys).takeWhile p = xs := by
  induction xs with
  | nil => simp [List.takeWhile_cons, hy]
  | cons a as ih =>
    have h1 := hall a (List.mem_cons_self a as)
    have h2 := ih (fun x hx => hall x (List.mem_cons_of_mem a hx))
    simp [List.takeWhile_cons, h1, h2]

theorem drop_takeWhile_length (p : Char → Bool) (l : List Char) :
    l.drop (l.takeWhile p).length = l.dropWhile p := by
  induction l with
  | nil => rfl
  | cons a as ih =>
    rw [List.takeWhile_cons, List.dropWhile_cons]
    by_cases hp : p a = true
    · simp [hp, List.length_cons, List.drop_succ_cons, ih]
    · simp [hp]

theorem dropWhile_shape (p : Char → Bool) (l : List Char) :
    l.dropWhile p = [] ∨
      ∃ a t, l.dropWhile p = a :: t ∧ p a = false := by
  induction l with
  | nil => exact Or.inl rfl
  | cons a as ih =>
    rw [List.dropWhile_cons]
    by_cases hp : p a = true
    · simpa [hp] using ih
    · simp only [hp, if_false]
      exact Or.inr ⟨a, as, rfl, by simpa using hp⟩

theorem map_id_of_all {f : Char → Char} (l : List Char)
    (h : ∀ c ∈ l, f c = c) : l.map f = l := by
  induction l with
  | nil => rfl
  | cons a as ih =>
    rw [List.map_cons, h a (List.mem_cons_self a as),
      ih (fun x hx => h x (List.mem_cons_of_mem a hx))]

theorem filter_all (p : Char → Bool) (l : List Char)
    (h : ∀ a ∈ l, p a = true) : l.filter p = l := by
  induction l with
  | nil => rfl
  | cons a as ih =>
    rw [List.filter_cons_of_pos (h a (List.mem_cons_self a as)),
      ih (fun x hx => h x (List.mem_cons_of_mem a hx))]

theorem headD_append_ne_nil (xs ys : List Char) (d : Char) (h : xs ≠ []) :
    (xs ++ ys).headD d = xs.headD d := by
  cases xs with
  | nil => exact absurd rfl h
  | cons a as => rfl

theorem take_append_add (xs ys : List Char) (i : Nat) :
    (xs ++ ys).take (xs.length + i) = xs ++ ys.take i := by
  induction xs with
  | nil => simp
  | cons a as ih => simp [List.length_cons, Nat.succ_add, List.take_succ_cons, ih]

theorem drop_append_add (xs ys : List Char) (i : Nat) :
    (xs ++ ys).drop (xs.length + i) = ys.drop i := by
  induction xs with
  | nil => simp
  | cons a as ih => simp [List.length_cons, Nat.succ_add, List.drop_succ_cons, ih]

theorem pySplitOn_ne_nil (c : Char) (cs : List Char) : pySplitOn c cs ≠ [] := by
  cases cs with
  | nil => simp [pySplitOn]
  | cons a as =>
    simp only [pySplitOn]
    split <;> simp

theorem pySplitOn_of_not_mem (c : Char) (cs : List Char)
    (h : ∀ a ∈ cs, a ≠ c) : pySplitOn c cs = [cs] := by
  induction cs with
  | nil => rfl
  | cons a as ih =>
    have ha : (a == c) = false := beq_false_of_ne (h a (List.mem_cons_self a as))
    have ih2 := ih (fun x hx => h x (List.mem_cons_of_mem a hx))
    simp [pySplitOn, ha, ih2]

theorem pySplitOn_two_le_of_mem (c : Char) (cs : List Char)
    (h : c ∈ cs) : 2 ≤ (pySplitOn c cs).length := by
  induction cs with
  | nil => simp at h
  | cons a as ih =>
    have hpos : 1 ≤ (pySplitOn c as).length :=
      List.length_pos.mpr (pySplitOn_ne_nil c as)
    by_cases hac : a = c
    · subst hac
      simp only [pySplitOn, beq_self_eq_true, if_true, List.length_cons]
      omega
    · have ha : (a == c) = false := beq_false_of_ne hac
      have hmem : c ∈ as := by
        rcases List.mem_cons.mp h with rfl | hmem
        · exact absurd rfl hac
        · exact hmem
      have ih2 := ih hmem
      simp only [pySplitOn, ha, Bool.false_eq_true, if_false, List.length_cons,
        List.length_tail]
      omega

theorem getLastD_cons_of_ne_nil (x : List Char) (r : List (List Char)) (hr : r ≠ []) :
    (x :: r).getLastD [] = r.getLastD [] := by
  obtain ⟨r1, t, rfl⟩ := List.exists_cons_of_ne_nil hr
  rw [List.getLastD_eq_getLast?, List.getLastD_eq_getLast?, List.getLast?_cons_cons]

theorem pyRfind_some_mem (c : Char) (cs : List Char) (i : Nat)
    (h : pyRfind c cs = some i) : c ∈ cs := by
  obtain ⟨hdec, _⟩ := pyRfind_decomp c cs i h
  rw [hdec]
  exact List.mem_append_right _ (List.mem_cons_self c _)

theorem pySplitOn_getLastD (c : Char) (cs : List Char) :
    (pySplitOn c cs).getLastD [] =
      (match pyRfind c cs with
       | some i => cs.drop (i + 1)
       | none => cs) := by
  induction cs with
  | nil => rfl
  | cons a as ih =>
    by_cases hac : a = c
    · subst hac
      have h1 : pySplitOn a (a :: as) = [] :: pySplitOn a as := by
        simp [pySplitOn]
      rw [h1, getLastD_cons_of_ne_nil [] _ (pySplitOn_ne_nil a as), ih]
      cases hr : pyRfind a as with
      | some j =>
        have hrf : pyRfind a (a :: as) = some (j + 1) := by simp [pyRfind, hr]
        simp [hrf, List.drop_succ_cons]
      | none =>
        have hrf : pyRfind a (a :: as) = some 0 := by simp [pyRfind, hr]
        simp [hrf, List.drop_succ_cons]
    · have ha : (a == c) = false := beq_false_of_ne hac
      have h1 : pySplitOn c (a :: as) =
          (a :: (pySplitOn c as).headD []) :: (pySplitOn c as).tail := by
        simp [pySplitOn, ha]
      cases hr : pyRfind c as with
      | some j =>
        have hrf : pyRfind c (a :: as) = some (j + 1) := by simp [pyRfind, hr]
        have hlen := pySplitOn_two_le_of_mem c as (pyRfind_some_mem c as j hr)
        obtain ⟨s1, t1, hst⟩ := List.exists_cons_of_ne_nil (pySplitOn_ne_nil c as)
        have ht1 : t1 ≠ [] := by
          intro hnil
          rw [hst, hnil] at hlen
          simp at hlen
        obtain ⟨s2, t2, hst2⟩ := List.exists_cons_of_ne_nil ht1
        rw [h1, hst, hst2]
        simp only [List.headD_cons, List.tail_cons, hrf, List.drop_succ_cons]
        have hih := ih
        rw [hr] at hih
        rw [hst, hst2] at hih
        simp only at hih
        rw [← hih]
        rw [List.getLastD_eq_getLast?, List.getLastD_eq_getLast?,
          List.getLast?_cons_cons, List.getLast?_cons_cons]
      | none =>
        have hrf : pyRfind c (a :: as) = none := by simp [pyRfind, hr, ha]
        have hsplit : pySplitOn c as = [as] :=
          pySplitOn_of_not_mem c as ((pyRfind_eq_none_iff c as).mp hr)
        rw [h1, hsplit, hrf]
        rfl

theorem contains_eq_false_of_forall_ne (c : Char) (cs : List Char)
    (h : ∀ a ∈ cs, a ≠ c) : cs.contains c = false := by
  cases hcc : cs.contains c
  · rfl
  · exact absurd rfl (h c (List.mem_of_elem_eq_true hcc))

/-! ## Staged facts about `urlsplit` on well-formed input -/

theorem notWsChar (c : Char) (h1 : c ≠ '\t') (h2 : c ≠ '\r') (h3 : c ≠ '\n') :
    (!(c == '\t' || c == '\r' || c == '\n')) = true := by
  simp [beq_false_of_ne h1, beq_false_of_ne h2, beq_false_of_ne h3]

theorem stripUnsafe_id (c0 : Char) (t : List Char)
    (h0 : ¬ (c0.toNat ≤ 32))
    (hws : ∀ c ∈ c0 :: t, c ≠ '\t' ∧ c ≠ '\r' ∧ c ≠ '\n') :
    stripUnsafe (c0 :: t) = c0 :: t := by
  unfold stripUnsafe
  rw [List.dropWhile_cons, if_neg (by simpa using h0)]
  exact filter_all _ _ (fun a ha => notWsChar a (hws a ha).1 (hws a ha).2.1 (hws a ha).2.2)

theorem splitScheme_valid (s rest : List Char)
    (hs0 : s ≠ [])
    (hs1 : (s.headD ' ').isAlpha = true)
    (hs2 : ∀ c ∈ s, schemeChar c = true) :
    splitScheme (s ++ ':' :: rest) = (s.map Char.toLower, rest) := by
  have hfind : pyFind ':' (s ++ ':' :: rest) = some s.length :=
    pyFind_append_cons ':' s rest (fun a ha => (schemeChar_ne a (hs2 a ha)).1)
  have hcond : 0 < s.length ∧ ((s ++ ':' :: rest).headD ' ').isAlpha = true ∧
      ((s ++ ':' :: rest).take s.length).all schemeChar = true := by
    refine ⟨List.length_pos.mpr hs0, ?_, ?_⟩
    · rw [headD_append_ne_nil s (':' :: rest) ' ' hs0]
      exact hs1
    · rw [List.take_left]
      exact List.all_eq_true.mpr hs2
  have hdrop : (s ++ ':' :: rest).drop (s.length + 1) = rest := by
    have h1 := drop_append_add s (':' :: rest) 1
    simp only [List.drop_succ_cons, List.drop_zero] at h1
    exact h1
  unfold splitScheme
  simp only [hfind]
  rw [if_pos hcond, List.take_left, hdrop]

theorem splitNetloc_valid (nl p : List Char)
    (hh : ∀ c ∈ nl, notNetlocDelim c = true)
    (hp0 : p = [] ∨ ∃ t, p = '/' :: t) :
    splitNetloc ('/' :: '/' :: (nl ++ p)) = (nl, p) := by
  have htw : (nl ++ p).takeWhile notNetlocDelim = nl := by
    rcases hp0 with rfl | ⟨t, rfl⟩
    · rw [List.append_nil]
      exact takeWhile_all _ _ hh
    · exact takeWhile_append_stop _ _ _ _ hh (by decide)
  simp only [splitNetloc, htw, List.drop_left]

theorem urlChars_no_ws (s nl p : List Char)
    (hs2 : ∀ c ∈ s, schemeChar c = true)
    (hh : ∀ c ∈ nl, notNetlocDelim c = true ∧ c ≠ '\t' ∧ c ≠ '\r' ∧ c ≠ '\n')
    (hp1 : ∀ c ∈ p, c ≠ '?' ∧ c ≠ '#' ∧ c ≠ '\t' ∧ c ≠ '\r' ∧ c ≠ '\n') :
    ∀ c ∈ s ++ ':' :: '/' :: '/' :: (nl ++ p), c ≠ '\t' ∧ c ≠ '\r' ∧ c ≠ '\n' := by
  intro c hc
  rcases List.mem_append.mp hc with hcs | hcrest
  · have hne := schemeChar_ne c (hs2 c hcs)
    exact ⟨hne.2.1, hne.2.2.1, hne.2.2.2.1⟩
  · rcases List.mem_cons.mp hcrest with rfl | hcrest
    · exact ⟨by decide, by decide, by decide⟩
    rcases List.mem_cons.mp hcrest with rfl | hcrest
    · exact ⟨by decide, by decide, by decide⟩
    rcases List.mem_cons.mp hcrest with rfl | hcrest
    · exact ⟨by decide, by decide, by decide⟩
    rcases List.mem_append.mp hcrest with hcn | hcp
    · exact ⟨(hh c hcn).2.1, (hh c hcn).2.2.1, (hh c hcn).2.2.2⟩
    · exact ⟨(hp1 c hcp).2.2.1, (hp1 c hcp).2.2.2.1, (hp1 c hcp).2.2.2.2⟩

theorem urlsplit_wellformed (s nl p : List Char)
    (hs0 : s ≠ []) (hs1 : (s.headD ' ').isAlpha = true)
    (hs2 : ∀ c ∈ s, schemeChar c = true)
    (hh : ∀ c ∈ nl, notNetlocDelim c = true ∧ c ≠ '\t' ∧ c ≠ '\r' ∧ c ≠ '\n')
    (hp0 : p = [] ∨ ∃ t, p = '/' :: t)
    (hp1 : ∀ c ∈ p, c ≠ '?' ∧ c ≠ '#' ∧ c ≠ '\t' ∧ c ≠ '\r' ∧ c ≠ '\n') :
    urlsplit (String.mk (s ++ ':' :: '/' :: '/' :: (nl ++ p))) =
      ⟨String.mk (s.map Char.toLower), String.mk nl, String.mk p, "", ""⟩ := by
  obtain ⟨c0, s', rfl⟩ := List.exists_cons_of_ne_nil hs0
  have hc0 : c0.isAlpha = true := by simpa using hs1
  have hstrip : stripUnsafe ((c0 :: s') ++ ':' :: '/' :: '/' :: (nl ++ p)) =
      (c0 :: s') ++ ':' :: '/' :: '/' :: (nl ++ p) :=
    stripUnsafe_id c0 _ (isAlpha_not_le32 c0 hc0)
      (urlChars_no_ws (c0 :: s') nl p hs2 hh hp1)
  have hscheme : splitScheme ((c0 :: s') ++ ':' :: '/' :: '/' :: (nl ++ p)) =
      ((c0 :: s').map Char.toLower, '/' :: '/' :: (nl ++ p)) :=
    splitScheme_valid (c0 :: s') _ hs0 hs1 hs2
  have hnetloc : splitNetloc ('/' :: '/' :: (nl ++ p)) = (nl, p) :=
    splitNetloc_valid nl p (fun c hc => (hh c hc).1) hp0
  have hfrag : splitOnceAt '#' p = (p, []) :=
    splitOnceAt_of_not_mem '#' p (fun a ha => (hp1 a ha).2.1)
  have hquery : splitOnceAt '?' p = (p, []) :=
    splitOnceAt_of_not_mem '?' p (fun a ha => (hp1 a ha).1)
  unfold urlsplit
  simp only [hstrip, hscheme, hnetloc, hfrag, hquery]

theorem urlparse_wellformed (s nl p : List Char)
    (hs0 : s ≠ []) (hs1 : (s.headD ' ').isAlpha = true)
    (hs2 : ∀ c ∈ s, schemeChar c = true)
    (hh : ∀ c ∈ nl, notNetlocDelim c = true ∧ c ≠ '\t' ∧ c ≠ '\r' ∧ c ≠ '\n')
    (hp0 : p = [] ∨ ∃ t, p = '/' :: t)
    (hp1 : ∀ c ∈ p, c ≠ '?' ∧ c ≠ '#' ∧ c ≠ '\t' ∧ c ≠ '\r' ∧ c ≠ '\n')
    (hp2 : ∀ c ∈ p, c ≠ ';') :
    urlparse (String.mk (s ++ ':' :: '/' :: '/' :: (nl ++ p))) =
      ⟨String.mk (s.map Char.toLower), String.mk nl, String.mk p, "", "", ""⟩ := by
  have hnm : ¬ (';' ∈ p) := fun hmem => absurd rfl (hp2 ';' hmem)
  unfold urlparse
  rw [urlsplit_wellformed s nl p hs0 hs1 hs2 hh hp0 hp1]
  simp [hnm]

/-! ## Shape of `urlsplit`/`urlparse` output on arbitrary input -/

theorem pyFind_lt_length (c : Char) (cs : List Char) (i : Nat)
    (h : pyFind c cs = some i) : i < cs.length := by
  induction cs generalizing i with
  | nil => simp [pyFind] at h
  | cons a as ih =>
    cases hac : a == c with
    | true =>
      simp only [pyFind, hac, if_true, Option.some.injEq] at h
      subst h
      simp
    | false =>
      simp only [pyFind, hac, Bool.false_eq_true, if_false] at h
      cases hfind : pyFind c as with
      | none => rw [hfind] at h; simp at h
      | some j =>
        rw [hfind] at h
        simp only [Option.map_some', Option.some.injEq] at h
        subst h
        have := ih j hfind
        simp only [List.length_cons]
        omega

theorem pyRfind_lt_length (c : Char) (cs : List Char) (i : Nat)
    (h : pyRfind c cs = some i) : i < cs.length := by
  induction cs generalizing i with
  | nil => simp [pyRfind] at h
  | cons a as ih =>
    simp only [pyRfind] at h
    cases hr : pyRfind c as with
    | some j =>
      rw [hr] at h
      simp only [Option.some.injEq] at h
      subst h
      have := ih j hr
      simp only [List.length_cons]
      omega
    | none =>
      rw [hr] at h
      cases hac : a == c with
      | true =>
        simp only [hac, if_true, Option.some.injEq] at h
        subst h
        simp
      | false =>
        simp only [hac, Bool.false_eq_true, if_false] at h
        exact absurd h (by simp)

theorem pyRfind_drop (c : Char) (cs : List Char) (i : Nat)
    (h : pyRfind c cs = some i) : cs.drop i = c :: cs.drop (i + 1) := by
  obtain ⟨hdec, _⟩ := pyRfind_decomp c cs i h
  have hlen : (cs.take i).length = i :=
    List.length_take_of_le (Nat.le_of_lt (pyRfind_lt_length c cs i h))
  conv_lhs => rw [hdec]
  have := drop_append_add (cs.take i) (c :: cs.drop (i + 1)) 0
  rw [Nat.add_zero, hlen] at this
  rw [this]
  rfl

theorem splitOnceAt_cons_self (c : Char) (t : List Char) :
    splitOnceAt c (c :: t) = ([], t) := by
  have hf : pyFind c (c :: t) = some 0 := by simp [pyFind]
  unfold splitOnceAt
  rw [hf]
  rfl

theorem headD_take_pos (cs : List Char) (i : Nat) (d : Char) (hi : 0 < i)
    (hcs : cs ≠ []) : (cs.take i).headD d = cs.headD d := by
  cases cs with
  | nil => exact absurd rfl hcs
  | cons a t =>
    cases i with
    | zero => omega
    | succ j => rfl

theorem splitScheme_shape (cs : List Char) :
    (splitScheme cs).1 = [] ∨
      ((splitScheme cs).1 ≠ [] ∧ ((splitScheme cs).1.headD ' ').isAlpha = true ∧
        ∀ c ∈ (splitScheme cs).1, schemeChar c = true) := by
  unfold splitScheme
  split
  · rename_i i hfind
    split
    · rename_i hcond
      obtain ⟨hi, hhead, hall⟩ := hcond
      right
      dsimp only
      have hlen : i < cs.length := pyFind_lt_length ':' cs i hfind
      obtain ⟨a, t, rfl⟩ : ∃ a t, cs = a :: t := by
        cases cs with
        | nil => simp at hlen
        | cons a t => exact ⟨a, t, rfl⟩
      obtain ⟨j, rfl⟩ : ∃ j, i = j + 1 := ⟨i - 1, by omega⟩
      simp only [List.take_succ_cons, List.map_cons]
      refine ⟨by simp, ?_, ?_⟩
      · simp only [List.headD_cons]
        exact toLower_isAlpha a (by simpa using hhead)
      · intro c hc
        rcases List.mem_cons.mp hc with rfl | hc2
        · refine toLower_schemeChar a ?_
          exact List.all_eq_true.mp hall a (by simp [List.take_succ_cons])
        · obtain ⟨b, hb, rfl⟩ := List.mem_map.mp hc2
          refine toLower_schemeChar b ?_
          refine List.all_eq_true.mp hall b ?_
          simp only [List.take_succ_cons, List.mem_cons]
          exact Or.inr hb
    · left; rfl
  · left; rfl

theorem splitNetloc_shape (cs : List Char) :
    (∀ c ∈ (splitNetloc cs).1, notNetlocDelim c = true) ∧
    ((splitNetloc cs).1 ≠ [] →
      (splitNetloc cs).2 = [] ∨
        ∃ a t, (splitNetloc cs).2 = a :: t ∧ notNetlocDelim a = false) := by
  unfold splitNetloc
  split
  · rename_i rest
    dsimp only
    constructor
    · intro c hc
      exact List.mem_takeWhile_imp hc
    · intro _
      rw [drop_takeWhile_length]
      rcases dropWhile_shape notNetlocDelim rest with hnil | ⟨a, t, heq, hfa⟩
      · exact Or.inl hnil
      · exact Or.inr ⟨a, t, heq, hfa⟩
  · dsimp only
    constructor
    · intro c hc
      simp at hc
    · intro hne
      exact absurd rfl hne

theorem urlsplit_shape (url : String) :
    ((urlsplit url).scheme = "" ∨
      ((urlsplit url).scheme.data ≠ [] ∧
        ((urlsplit url).scheme.data.headD ' ').isAlpha = true ∧
        ∀ c ∈ (urlsplit url).scheme.data, schemeChar c = true)) ∧
    (∀ c ∈ (urlsplit url).netloc.data, notNetlocDelim c = true) ∧
    (∀ c ∈ (urlsplit url).path.data, c ≠ '?' ∧ c ≠ '#') ∧
    ((urlsplit url).netloc.data ≠ [] →
      (urlsplit url).path.data = [] ∨ ∃ t, (urlsplit url).path.data = '/' :: t) := by
  unfold urlsplit
  dsimp only
  refine ⟨?_, ?_, ?_, ?_⟩
  · rcases splitScheme_shape (stripUnsafe url.data) with hnil | hprops
    · left
      rw [hnil]
    · right
      exact hprops
  · exact (splitNetloc_shape _).1
  · intro c hc
    refine ⟨splitOnceAt_fst_not_mem '?' _ c hc, ?_⟩
    have hc2 := splitOnceAt_fst_subset '?' _ c hc
    exact splitOnceAt_fst_not_mem '#' _ c hc2
  · intro hne
    rcases (splitNetloc_shape (splitScheme (stripUnsafe url.data)).2).2 hne with hnil2 | ⟨a, t, heq, hfa⟩
    · rw [hnil2]
      left
      rfl
    · rw [heq]
      have htri : a = '/' ∨ a = '?' ∨ a = '#' := by
        have h2 := hfa
        unfold notNetlocDelim at h2
        simp only [Bool.not_eq_false', Bool.or_eq_true, beq_iff_eq] at h2
        tauto
      rcases htri with rfl | rfl | rfl
      · right
        rw [splitOnceAt_fst_cons '#' '/' t (by decide)]
        rw [splitOnceAt_fst_cons '?' '/' _ (by decide)]
        exact ⟨_, rfl⟩
      · left
        rw [splitOnceAt_fst_cons '#' '?' t (by decide)]
        rw [splitOnceAt_cons_self '?' _]
      · left
        rw [splitOnceAt_cons_self '#' t]
        rfl

theorem pyFind_cons_ne_pos (c a : Char) (t : List Char) (k : Nat)
    (hne : (a == c) = false) (h : pyFind c (a :: t) = some k) : 1 ≤ k := by
  simp only [pyFind, hne, Bool.false_eq_true, if_false] at h
  cases hf : pyFind c t with
  | none => rw [hf] at h; simp at h
  | some j =>
    rw [hf] at h
    simp only [Option.map_some', Option.some.injEq] at h
    omega

theorem splitparams_shape (path : List Char) :
    (∀ c ∈ (splitparams path).1, c ∈ path) ∧
    (∀ t, path = '/' :: t → ∃ t2, (splitparams path).1 = '/' :: t2) := by
  constructor
  · unfold splitparams
    dsimp only
    split
    · rename_i i heq
      dsimp only
      intro c hc
      exact List.take_subset i path hc
    · intro c hc
      exact hc
  · intro t hpath
    subst hpath
    unfold splitparams
    dsimp only
    split
    · rename_i i heq
      have hipos : 1 ≤ i := by
        have hcont : ('/' :: t).contains '/' = true := by simp
        rw [if_pos hcont] at heq
        cases hrf : pyRfind '/' ('/' :: t) with
        | none =>
          simp only [hrf] at heq
          exact absurd heq (by simp)
        | some j =>
          simp only [hrf] at heq
          cases hpf : pyFind ';' (('/' :: t).drop j) with
          | none =>
            simp only [hpf] at heq
            exact absurd heq (by simp)
          | some k =>
            simp only [hpf, Option.some.injEq] at heq
            subst heq
            by_cases hj : j = 0
            · subst hj
              simp only [List.drop_zero] at hpf
              have := pyFind_cons_ne_pos ';' '/' t k (by decide) hpf
              omega
            · omega
      obtain ⟨m, rfl⟩ : ∃ m, i = m + 1 := ⟨i - 1, by omega⟩
      exact ⟨t.take m, by simp [List.take_succ_cons]⟩
    · exact ⟨t, rfl⟩

theorem urlparse_scheme (url : String) :
    (urlparse url).scheme = (urlsplit url).scheme := rfl

theorem urlparse_netloc (url : String) :
    (urlparse url).netloc = (urlsplit url).netloc := rfl

theorem urlparse_query (url : String) :
    (urlparse url).query = (urlsplit url).query := rfl

theorem urlparse_path_shape (url : String) :
    (∀ c ∈ (urlparse url).path.data, c ∈ (urlsplit url).path.data) ∧
    (∀ t, (urlsplit url).path.data = '/' :: t →
      ∃ t2, (urlparse url).path.data = '/' :: t2) := by
  unfold urlparse
  dsimp only
  by_cases hcond : (urlsplit url).scheme ∈ uses_params ∧
      (urlsplit url).path.data.contains ';' = true
  · rw [if_pos hcond]
    constructor
    · intro c hc
      exact (splitparams_shape _).1 c hc
    · intro t ht
      exact (splitparams_shape _).2 t ht
  · rw [if_neg hcond]
    constructor
    · intro c hc
      exact hc
    · intro t ht
      exact ⟨t, ht⟩

/-! ## `split_url` decomposition -/

theorem string_mk_append (a b : List Char) :
    String.mk a ++ String.mk b = String.mk (a ++ b) := rfl

theorem string_length_data (s : String) : s.length = s.data.length := rfl

theorem string_ext (s t : String) (h : s.data = t.data) : s = t := by
  cases s
  cases t
  exact congrArg String.mk h

theorem split_url_decomp (url : String)
    (hp : ∃ t, (urlparse url).path.data = '/' :: t) :
    ((split_url url).file_url =
      (split_url url).base_url ++ "/" ++ get_file_name_from_url url) ∧
    (¬ '/' ∈ (get_file_name_from_url url).data) ∧
    ((split_url url).file_url.data =
      ((urlparse url).scheme.data ++ ':' :: '/' :: '/' :: (urlparse url).netloc.data) ++
        (urlparse url).path.data) ∧
    (∃ q, (split_url url).base_url.data =
        ((urlparse url).scheme.data ++ ':' :: '/' :: '/' :: (urlparse url).netloc.data) ++ q ∧
        (q = [] ∨ ∃ t2, q = '/' :: t2) ∧ ∀ c ∈ q, c ∈ (urlparse url).path.data) ∧
    ((split_url url).base_url.length < (split_url url).file_url.length) := by
  obtain ⟨t0, hP⟩ := hp
  obtain ⟨i, hi⟩ := pyRfind_isSome_of_mem '/' (urlparse url).path.data
    (by rw [hP]; exact List.mem_cons_self '/' t0)
  obtain ⟨hPdec, hPafter⟩ := pyRfind_decomp '/' (urlparse url).path.data i hi
  have hiLt := pyRfind_lt_length '/' _ i hi
  have hfile : ((urlparse url).scheme ++ "://" ++ (urlparse url).netloc ++
      (urlparse url).path).data =
      ((urlparse url).scheme.data ++ ':' :: '/' :: '/' :: (urlparse url).netloc.data) ++
        (urlparse url).path.data := by
    simp [String.data_append, List.append_assoc]
  have hrfile : pyRfind '/' (((urlparse url).scheme ++ "://" ++ (urlparse url).netloc ++
      (urlparse url).path).data) =
      some (((urlparse url).scheme.data ++ ':' :: '/' :: '/' ::
        (urlparse url).netloc.data).length + i) := by
    rw [hfile]
    exact pyRfind_append_some '/' _ _ i hi
  have htake : (((urlparse url).scheme ++ "://" ++ (urlparse url).netloc ++
      (urlparse url).path).data).take
      (((urlparse url).scheme.data ++ ':' :: '/' :: '/' ::
        (urlparse url).netloc.data).length + i) =
      ((urlparse url).scheme.data ++ ':' :: '/' :: '/' :: (urlparse url).netloc.data) ++
        (urlparse url).path.data.take i := by
    rw [hfile]
    exact take_append_add _ _ i
  have hfname : get_file_name_from_url url =
      String.mk ((urlparse url).path.data.drop (i + 1)) := by
    unfold get_file_name_from_url
    dsimp only
    rw [pySplitOn_getLastD, hi]
  unfold split_url
  dsimp only
  simp only [hrfile]
  rw [htake]
  refine ⟨?_, ?_, ?_, ?_, ?_⟩
  · rw [hfname]
    apply string_ext
    have hrhs : (String.mk (((urlparse url).scheme.data ++ ':' :: '/' :: '/' ::
          (urlparse url).netloc.data) ++ (urlparse url).path.data.take i) ++ "/" ++
          String.mk ((urlparse url).path.data.drop (i + 1))).data =
        (((urlparse url).scheme.data ++ ':' :: '/' :: '/' ::
          (urlparse url).netloc.data) ++ (urlparse url).path.data.take i) ++
          '/' :: (urlparse url).path.data.drop (i + 1) := by
      simp [String.data_append, show ("/" : String).data = ['/'] from rfl]
    rw [hrhs, hfile]
    conv_lhs => rw [hPdec]
    simp [List.append_assoc]
  · rw [hfname]
    intro hmem
    exact hPafter '/' hmem rfl
  · exact hfile
  · refine ⟨(urlparse url).path.data.take i, rfl, ?_, fun c hc => List.take_subset i _ hc⟩
    by_cases hzero : i = 0
    · subst hzero
      left
      simp
    · right
      obtain ⟨m, rfl⟩ : ∃ m, i = m + 1 := ⟨i - 1, by omega⟩
      rw [hP]
      exact ⟨t0.take m, by simp [List.take_succ_cons]⟩
  · rw [string_length_data, string_length_data]
    dsimp only
    rw [hfile]
    simp only [List.length_append, List.length_take]
    omega

theorem notQueryFragChar_of_ne (c : Char) (h1 : c ≠ '?') (h2 : c ≠ '#') :
    notQueryFragChar c = true := by
  simp [notQueryFragChar, beq_false_of_ne h1, beq_false_of_ne h2]

theorem isSchemeAuthorityPathUrl_concat (S N P : List Char)
    (hS0 : S ≠ []) (hS1 : (S.headD ' ').isAlpha = true)
    (hS2 : ∀ c ∈ S, schemeChar c = true)
    (hN0 : N ≠ []) (hN : ∀ c ∈ N, notNetlocDelim c = true)
    (hP : ∀ c ∈ P, c ≠ '?' ∧ c ≠ '#') (hP0 : P = [] ∨ ∃ t, P = '/' :: t) :
    isSchemeAuthorityPathUrl (String.mk (S ++ ':' :: '/' :: '/' :: (N ++ P))) = true := by
  have hfind : pyFind ':' (S ++ ':' :: '/' :: '/' :: (N ++ P)) = some S.length :=
    pyFind_append_cons ':' S _ (fun a ha => (schemeChar_ne a (hS2 a ha)).1)
  have htw : (N ++ P).takeWhile notNetlocDelim = N := by
    rcases hP0 with rfl | ⟨t, rfl⟩
    · rw [List.append_nil]
      exact takeWhile_all _ _ hN
    · exact takeWhile_append_stop _ _ _ _ hN (by decide)
  have hdropS : (S ++ ':' :: '/' :: '/' :: (N ++ P)).drop S.length =
      ':' :: '/' :: '/' :: (N ++ P) := by
    have h0 := drop_append_add S (':' :: '/' :: '/' :: (N ++ P)) 0
    rw [Nat.add_zero] at h0
    rw [h0]
    rfl
  unfold isSchemeAuthorityPathUrl
  simp only [hfind]
  rw [List.take_left, hdropS]
  simp only [htw, List.drop_left]
  have hSne : S.isEmpty = false := by
    cases S with
    | nil => exact absurd rfl hS0
    | cons a t => rfl
  have hNne : N.isEmpty = false := by
    cases N with
    | nil => exact absurd rfl hN0
    | cons a t => rfl
  have hPall : P.all notQueryFragChar = true :=
    List.all_eq_true.mpr (fun c hc => notQueryFragChar_of_ne c (hP c hc).1 (hP c hc).2)
  have hS1x : (S.head?.getD ' ').isAlpha = true := by simpa using hS1
  simp [hSne, hNne, hS1, hS1x, hPall, List.all_eq_true.mpr hS2]

/-! ## Claim theorems: the remote fetchers -/

/-- A sample decoded body of the account endpoint, shaped
`{response: {account: {username: "alice"}}}`. -/
def sampleAccountJson : Json :=
  Json.obj [("response", Json.obj [("account", Json.obj [("username", Json.str "alice")])])]

/-- Claim C7: `get_fansly_account_for_token` returns the embedded username
exactly when the HTTP response has status 200 and a non-empty username
field; the "field present but empty" and non-200 cases degrade to a `None`
return, while transport exceptions are not caught and propagate to the
caller. -/
theorem C7_account_identity (r : PyResponse) (e : PyExc)
    (body resp acct : Json) (s : String) :
    (get_fansly_account_for_token (Except.error e) = Except.error e) ∧
    (r.status_code ≠ 200 →
      get_fansly_account_for_token (Except.ok r) = Except.ok Option.none) ∧
    (r.status_code = 200 → r.jsonBody = Except.ok body →
      body.getItem "response" = Except.ok resp →
      resp.getItem "account" = Except.ok acct →
      acct.getItem "username" = Except.ok (Json.str s) →
      get_fansly_account_for_token (Except.ok r) =
        (if s = "" then Except.ok Option.none else Except.ok (some (Json.str s)))) ∧
    (∀ u : Json, get_fansly_account_for_token (Except.ok r) = Except.ok (some u) →
      r.status_code = 200 ∧ u.truthy = true) := by
  refine ⟨rfl, ?_, ?_, ?_⟩
  · intro hne
    simp only [get_fansly_account_for_token]
    rw [if_neg hne]
  · intro h200 hbody hresp hacct huser
    simp only [get_fansly_account_for_token]
    rw [if_pos h200]
    simp only [hbody, hresp, hacct, huser]
    by_cases hs : s = ""
    · subst hs
      have htr0 : (Json.str "").truthy = false := rfl
      simp [htr0]
    · rw [if_neg hs]
      have htr : (Json.str s).truthy = true := by
        have hie : s.isEmpty = false := by
          cases hie2 : s.isEmpty
          · rfl
          · exact absurd ((String.isEmpty_iff s).mp hie2) hs
        simp [Json.truthy, hie]
      simp [htr]
  · intro u hu
    simp only [get_fansly_account_for_token] at hu
    by_cases h200 : r.status_code = 200
    · rw [if_pos h200] at hu
      refine ⟨h200, ?_⟩
      cases hb : r.jsonBody with
      | error e2 =>
        simp only [hb] at hu
        exact absurd hu (by simp)
      | ok j =>
        simp only [hb] at hu
        cases hr1 : j.getItem "response" with
        | error e2 =>
          simp only [hr1] at hu
          exact absurd hu (by simp)
        | ok j1 =>
          simp only [hr1] at hu
          cases hr2 : j1.getItem "account" with
          | error e2 =>
            simp only [hr2] at hu
            exact absurd hu (by simp)
          | ok j2 =>
            simp only [hr2] at hu
            cases hr3 : j2.getItem "username" with
            | error e2 =>
              simp only [hr3] at hu
              exact absurd hu (by simp)
            | ok j3 =>
              simp only [hr3] at hu
              by_cases ht : j3.truthy = true
              · rw [if_pos ht] at hu
                simp only [Except.ok.injEq, Option.some.injEq] at hu
                rw [← hu]
                exact ht
              · rw [if_neg ht] at hu
                exact absurd hu (by simp)
    · rw [if_neg h200] at hu
      exact absurd hu (by simp)

/-- Witness for C7 at concrete inputs. -/
theorem C7_account_identity_witness :
    get_fansly_account_for_token
        (Except.ok ⟨200, Except.ok sampleAccountJson⟩) =
      Except.ok (some (Json.str "alice")) ∧
    get_fansly_account_for_token (Except.ok ⟨404, Except.ok Json.null⟩) =
      Except.ok Option.none ∧
    get_fansly_account_for_token (Except.error (PyExc.transport "timeout")) =
      Except.error (PyExc.transport "timeout") := by
  refine ⟨?_, ?_, ?_⟩
  · have h := (C7_account_identity ⟨200, Except.ok sampleAccountJson⟩
      PyExc.typeError sampleAccountJson
      (Json.obj [("account", Json.obj [("username", Json.str "alice")])])
      (Json.obj [("username", Json.str "alice")]) "alice").2.2.1
      rfl rfl rfl rfl rfl
    rw [if_neg (by decide)] at h
    exact h
  · exact (C7_account_identity ⟨404, Except.ok Json.null⟩ PyExc.typeError
      Json.null Json.null Json.null "x").2.1 (by decide)
  · exact (C7_account_identity ⟨0, Except.ok Json.null⟩ (PyExc.transport "timeout")
      Json.null Json.null Json.null "x").1

/-- Claim C8: `get_release_info_from_github` returns `None` on any transport
exception or non-2xx status, and on a 200 response with a valid JSON
payload it returns the decoded JSON body unmodified. -/
theorem C8_release_fetch (r : PyResponse) (e : PyExc) (j : Json) :
    (get_release_info_from_github (Except.error e) = Except.ok Option.none) ∧
    (¬ (200 ≤ r.status_code ∧ r.status_code < 300) →
      get_release_info_from_github (Except.ok r) = Except.ok Option.none) ∧
    (r.status_code = 200 → r.jsonBody = Except.ok j →
      get_release_info_from_github (Except.ok r) = Except.ok (some j)) := by
  refine ⟨rfl, ?_, ?_⟩
  · intro hno
    simp only [get_release_info_from_github]
    unfold raise_for_status
    by_cases h46 : 400 ≤ r.status_code ∧ r.status_code < 600
    · simp [h46]
    · have hne : r.status_code ≠ 200 := by omega
      simp [h46, hne]
  · intro h200 hj
    simp only [get_release_info_from_github]
    unfold raise_for_status
    rw [if_neg (by omega)]
    simp [h200, hj]

/-- Witness for C8 at concrete inputs: a 404 yields `None` and a 200 with a
decoded body yields the body unchanged. -/
theorem C8_release_fetch_witness :
    get_release_info_from_github (Except.ok ⟨404, Except.error PyExc.jsonDecode⟩) =
      Except.ok Option.none ∧
    get_release_info_from_github (Except.ok ⟨200, Except.ok (Json.str "v1.0")⟩) =
      Except.ok (some (Json.str "v1.0")) :=
  ⟨(C8_release_fetch ⟨404, Except.error PyExc.jsonDecode⟩ PyExc.jsonDecode Json.null).2.1
      (by decide),
   (C8_release_fetch ⟨200, Except.ok (Json.str "v1.0")⟩ PyExc.jsonDecode
      (Json.str "v1.0")).2.2 rfl rfl⟩

/-- Counterexample to claim C9 as stated: a 200 response whose body fails
JSON decoding makes `get_release_info_from_github` propagate the decoding
exception — `response.json()` sits outside the `try` block. -/
theorem C9_counterexample :
    get_release_info_from_github (Except.ok ⟨200, Except.error PyExc.jsonDecode⟩) =
      Except.error PyExc.jsonDecode ∧
    (Except.error PyExc.jsonDecode : Except PyExc (Option Json)) ≠
      Except.ok Option.none := by
  exact ⟨rfl, by simp⟩

/-- Claim C9 (amended): for every transport outcome except a 200 response
whose body is not decodable JSON, the release fetcher handles the failure
locally and returns normally (`None` or the decoded body); only the
JSON-decoding failure of a 200 response escapes. -/
theorem C9_release_no_crash (response : Except PyExc PyResponse)
    (h : ∀ r : PyResponse, response = Except.ok r → r.status_code = 200 →
        ∀ e : PyExc, r.jsonBody ≠ Except.error e) :
    (get_release_info_from_github response).isOk = true := by
  cases response with
  | error e => rfl
  | ok r =>
    simp only [get_release_info_from_github]
    unfold raise_for_status
    by_cases h46 : 400 ≤ r.status_code ∧ r.status_code < 600
    · rw [if_pos h46]
      rfl
    · rw [if_neg h46]
      dsimp only
      by_cases h200 : r.status_code = 200
      · rw [if_neg (by omega : ¬ (r.status_code ≠ 200))]
        cases hb : r.jsonBody with
        | error e2 => exact absurd hb (h r rfl h200 e2)
        | ok j =>
          simp only [hb]
          rfl
      · rw [if_pos h200]
        rfl

/-- Witness for C9 (amended) at concrete inputs. -/
theorem C9_release_no_crash_witness :
    (get_release_info_from_github (Except.ok ⟨200, Except.ok Json.null⟩)).isOk = true ∧
    (get_release_info_from_github (Except.error (PyExc.transport "down"))).isOk = true := by
  constructor
  · apply C9_release_no_crash
    intro r hr h200 e
    injection hr with hr2
    rw [← hr2]
    simp
  · apply C9_release_no_crash
    intro r hr h200 e
    exact absurd hr (by simp)

/-! ## Claim theorems: the user-agent selector -/

theorem guess_user_agent_mem_or_default (user_agents : List String) (b d os : String) :
    guess_user_agent user_agents b d os = d ∨
      guess_user_agent user_agents b d os ∈ user_agents := by
  unfold guess_user_agent
  dsimp only
  split
  · rename_i ua hf
    right
    split at hf
    · exact List.mem_of_find?_eq_some hf
    · split at hf
      · exact List.mem_of_find?_eq_some hf
      · split at hf
        · exact List.mem_of_find?_eq_some hf
        · exact absurd hf (by simp)
  · left
    rfl

theorem guess_user_agent_nil (b d os : String) : guess_user_agent [] b d os = d := by
  unfold guess_user_agent
  dsimp only
  split
  · rename_i ua hf
    split at hf
    · simp at hf
    · split at hf
      · simp at hf
      · split at hf
        · simp at hf
        · exact absurd hf (by simp)
  · rfl

/-- Claim C5: `guess_user_agent` first normalizes the browser name
(`"Microsoft Edge"` becomes the token `"Edg"`), and on Windows scans the
candidates in order, returning the first one that contains the normalized
browser token, contains `"Windows"`, and contains the `Windows NT` version
extracted from that same candidate. -/
theorem C5_guess_user_agent_windows (user_agents : List String)
    (based_on_browser default_ua ua : String)
    (h : user_agents.find?
        (windowsUAMatch
          (if based_on_browser = "Microsoft Edge" then "Edg" else based_on_browser)) =
      some ua) :
    guess_user_agent user_agents based_on_browser default_ua "Windows" = ua := by
  unfold guess_user_agent
  dsimp only
  rw [if_pos rfl, h]

/-- A realistic Windows Chrome user-agent candidate. -/
def chromeWinUA : String :=
  "Mozilla/5.0 (Windows NT 10.0; Win64; x64) AppleWebKit/537.36 (KHTML, like Gecko) Chrome/120.0.0.0 Safari/537.36"

/-- Witness for C5: a list whose only entry is a Windows Chrome candidate
with a valid embedded NT version is answered with exactly that entry. -/
theorem C5_guess_user_agent_windows_witness :
    guess_user_agent [chromeWinUA] "Chrome" "DEF" "Windows" = chromeWinUA :=
  C5_guess_user_agent_windows [chromeWinUA] "Chrome" "DEF" chromeWinUA (by rfl)

/-- Claim C6: `guess_user_agent` never raises (it is a total function here)
and always returns a string: the default when the OS is unhandled, the
default or a member of the candidate list otherwise, and the default on an
empty candidate list. -/
theorem C6_guess_user_agent_total (user_agents : List String) (b d os : String) :
    ((os ≠ "Windows" ∧ os ≠ "Darwin" ∧ os ≠ "Linux") →
      guess_user_agent user_agents b d os = d) ∧
    ((∀ ua ∈ user_agents,
        windowsUAMatch (if b = "Microsoft Edge" then "Edg" else b) ua = false) →
      guess_user_agent user_agents b d "Windows" = d) ∧
    ((∀ ua ∈ user_agents,
        darwinUAMatch (if b = "Microsoft Edge" then "Edg" else b) ua = false) →
      guess_user_agent user_agents b d "Darwin" = d) ∧
    ((∀ ua ∈ user_agents,
        linuxUAMatch (if b = "Microsoft Edge" then "Edg" else b) ua = false) →
      guess_user_agent user_agents b d "Linux" = d) ∧
    (guess_user_agent user_agents b d os = d ∨
      guess_user_agent user_agents b d os ∈ user_agents) ∧
    guess_user_agent [] b d os = d := by
  refine ⟨?_, ?_, ?_, ?_, guess_user_agent_mem_or_default user_agents b d os,
    guess_user_agent_nil b d os⟩
  · intro hos
    obtain ⟨h1, h2, h3⟩ := hos
    unfold guess_user_agent
    dsimp only
    rw [if_neg h1, if_neg h2, if_neg h3]
  · intro hall
    unfold guess_user_agent
    dsimp only
    rw [if_pos rfl,
      List.find?_eq_none.mpr (fun ua hua => by simp [hall ua hua])]
  · intro hall
    unfold guess_user_agent
    dsimp only
    rw [if_neg (by decide : ¬ ("Darwin" : String) = "Windows"), if_pos rfl,
      List.find?_eq_none.mpr (fun ua hua => by simp [hall ua hua])]
  · intro hall
    unfold guess_user_agent
    dsimp only
    rw [if_neg (by decide : ¬ ("Linux" : String) = "Windows"),
      if_neg (by decide : ¬ ("Linux" : String) = "Darwin"), if_pos rfl,
      List.find?_eq_none.mpr (fun ua hua => by simp [hall ua hua])]

/-- Witness for C6 at concrete inputs: an unhandled OS, a non-empty
candidate list in which no candidate satisfies the Windows matching
conditions, and an empty candidate list all return the default unchanged. -/
theorem C6_guess_user_agent_total_witness :
    guess_user_agent [chromeWinUA] "Chrome" "DEF" "FreeBSD" = "DEF" ∧
    guess_user_agent ["Mozilla/5.0 (X11; Linux x86_64; rv:109.0) Gecko/20100101 Firefox/115.0"]
      "Chrome" "DEF" "Windows" = "DEF" ∧
    guess_user_agent [] "Chrome" "DEF" "Windows" = "DEF" :=
  ⟨(C6_guess_user_agent_total [chromeWinUA] "Chrome" "DEF" "FreeBSD").1
      (by refine ⟨?_, ?_, ?_⟩ <;> decide),
   (C6_guess_user_agent_total
      ["Mozilla/5.0 (X11; Linux x86_64; rv:109.0) Gecko/20100101 Firefox/115.0"]
      "Chrome" "DEF" "Windows").2.1 (by decide),
   (C6_guess_user_agent_total [] "Chrome" "DEF" "Windows").2.2.2.2.2⟩

/-- A crafted candidate whose `Mac OS X` version token is in underscore form
but whose dotted form also occurs verbatim later in the string. -/
def craftedMacUA : String := "Macintosh Chrome Mac OS X 10_15_7 z/10.15.7"

/-- Counterexample to claim C10 as stated: a Darwin candidate whose
`Mac OS X` version token contains underscores CAN be selected — the dotted
form of the extracted version merely has to occur verbatim elsewhere in the
candidate for the reappearance check to pass. -/
theorem C10_counterexample :
    guess_user_agent [craftedMacUA] "Chrome" "DEF" "Darwin" = craftedMacUA ∧
    reSearchLitRun "Mac OS X ".data isMacVersionChar craftedMacUA.data =
      some "10_15_7".data ∧
    ('_' ∈ "10_15_7".data) ∧
    craftedMacUA ≠ "DEF" := by
  refine ⟨by rfl, by rfl, by decide, by decide⟩

/-- Claim C10 (amended): on Darwin the extracted `Mac OS X` version has its
underscores replaced by dots before the verbatim-reappearance check, so a
candidate is never selected when the dotted form of its extracted version
does not occur in it; a list of only such candidates yields the default. -/
theorem C10_darwin_underscore (user_agents : List String) (b d : String)
    (h : ∀ ua ∈ user_agents, ∀ run : List Char,
        reSearchLitRun "Mac OS X ".data isMacVersionChar ua.data = some run →
        containsSub ua.data (run.map (fun c => if c = '_' then '.' else c)) = false) :
    guess_user_agent user_agents b d "Darwin" = d := by
  unfold guess_user_agent
  dsimp only
  rw [if_neg (by decide : ¬ ("Darwin" : String) = "Windows"), if_pos rfl]
  have hnone : user_agents.find?
      (darwinUAMatch (if b = "Microsoft Edge" then "Edg" else b)) = none := by
    rw [List.find?_eq_none]
    intro ua hua hcontra
    unfold darwinUAMatch at hcontra
    rcases Bool.and_eq_true_iff.mp hcontra with ⟨hab, hmatch⟩
    cases hre : reSearchLitRun "Mac OS X ".data isMacVersionChar ua.data with
    | none =>
      simp only [hre] at hmatch
      exact absurd hmatch (by simp)
    | some run =>
      simp only [hre] at hmatch
      rw [h ua hua run hre] at hmatch
      exact absurd hmatch (by simp)
  rw [hnone]

/-- A realistic macOS candidate in underscore form whose dotted version does
not otherwise occur. -/
def macUnderscoreUA : String :=
  "Mozilla/5.0 (Macintosh; Intel Mac OS X 10_15_7) AppleWebKit/605.1.15 Chrome/90.0"

/-- Witness for C10 (amended) at a concrete input. -/
theorem C10_darwin_underscore_witness :
    guess_user_agent [macUnderscoreUA] "Chrome" "DEF" "Darwin" = "DEF" := by
  apply C10_darwin_underscore
  intro ua hua run hrun
  rw [List.mem_singleton] at hua
  subst hua
  have hre : reSearchLitRun "Mac OS X ".data isMacVersionChar macUnderscoreUA.data =
      some "10_15_7".data := by rfl
  rw [hre] at hrun
  injection hrun with hrun2
  rw [← hrun2]
  rfl

/-! ## Claim theorems: the query extractor -/

theorem parse_qs_get_ne_some_nil (pairs : List (String × String)) (key : String) :
    ∀ vs, parse_qs_get pairs key = some vs → vs ≠ [] := by
  intro vs h
  unfold parse_qs_get at h
  dsimp only at h
  split at h
  · exact absurd h (by simp)
  · rename_i hne
    injection h with h2
    subst h2
    intro hnil
    rw [hnil] at hne
    exact hne rfl

/-- Counterexample to claim C1 as stated: on `?x=&y=2` queried for `x` with
default `"fallback"`, `get_qs_value` returns the default object — not the
`None` sentinel — because `parse_qs` drops blank values, so the key is
absent from the parsed dictionary. -/
theorem C1_counterexample :
    get_qs_value "https://h/p?x=&y=2" "x" "fallback" = Sum.inr "fallback" ∧
    (Sum.inr "fallback" : Option String ⊕ String) ≠ Sum.inl Option.none ∧
    parse_qsl "x=&y=2" = [("y", "2")] := by
  refine ⟨rfl, by simp, by rfl⟩

/-- Claim C1 (amended): a key whose values in the query string are all empty
is dropped during parsing and treated as absent, so the caller's default is
returned; the `None`-returning empty-list branch of `get_qs_value` is
unreachable for every URL, key and default. -/
theorem C1_blank_values_dropped :
    (∀ (α : Type) (url key : String) (d : α),
      get_qs_value url key d ≠ Sum.inl Option.none) ∧
    get_qs_value "https://h/p?x=&y=2" "x" "fallback" = Sum.inr "fallback" := by
  constructor
  · intro α url key d h
    unfold get_qs_value at h
    dsimp only at h
    cases hg : parse_qs_get (parse_qsl (urlparse url).query) key with
    | none =>
      simp only [hg] at h
      exact absurd h (by simp)
    | some result =>
      simp only [hg] at h
      by_cases hlen : result.length = 0
      · exact parse_qs_get_ne_some_nil _ _ result hg (List.length_eq_zero.mp hlen)
      · rw [if_neg hlen] at h
        simp at h
  · rfl

/-- Witness for C1 (amended) at concrete inputs. -/
theorem C1_blank_values_dropped_witness :
    get_qs_value "https://h/p?x=&y=2" "x" "fallback" = Sum.inr "fallback" ∧
    get_qs_value "https://h/p?a=1" "a" (0 : Nat) ≠ Sum.inl Option.none :=
  ⟨C1_blank_values_dropped.2, C1_blank_values_dropped.1 Nat "https://h/p?a=1" "a" 0⟩

/-- Claim C2: `get_qs_value` returns the caller's default itself whenever
the key is absent from the parsed query string, and the first parsed value
(in query-string order) when the key is present; in particular
`?x=1&x=2` queried for `x` yields `"1"`. -/
theorem C2_default_identity_first_value {α : Type} (url key : String) (d : α) :
    ((∀ pr ∈ parse_qsl (urlparse url).query, pr.1 ≠ key) →
      get_qs_value url key d = Sum.inr d) ∧
    (∀ (v : String) (vs : List String),
      parse_qs_get (parse_qsl (urlparse url).query) key = some (v :: vs) →
      get_qs_value url key d = Sum.inl (some v)) ∧
    get_qs_value "https://h/p?x=1&x=2" "x" d = Sum.inl (some "1") := by
  refine ⟨?_, ?_, ?_⟩
  · intro habs
    have hfilter : (parse_qsl (urlparse url).query).filter (fun pr => pr.1 == key) = [] := by
      rw [List.filter_eq_nil_iff]
      intro a ha
      simpa using habs a ha
    have hget : parse_qs_get (parse_qsl (urlparse url).query) key = none := by
      unfold parse_qs_get
      simp [hfilter]
    unfold get_qs_value
    dsimp only
    simp only [hget]
  · intro v vs hget
    unfold get_qs_value
    dsimp only
    simp only [hget]
    rw [if_neg (by simp)]
    rfl
  · rfl

/-- Witness for C2 at concrete inputs: absent key returns the default
unchanged; repeated key surfaces the first value. -/
theorem C2_default_identity_first_value_witness :
    get_qs_value "https://h/p?y=2" "x" "fallback" = Sum.inr "fallback" ∧
    get_qs_value "https://h/p?x=1&x=2" "x" (0 : Nat) = Sum.inl (some "1") :=
  ⟨(C2_default_identity_first_value "https://h/p?y=2" "x" "fallback").1 (by decide),
   (C2_default_identity_first_value "https://h/p?x=1&x=2" "x" 0).2.1 "1" ["2"] (by rfl)⟩

/-! ## Claim theorems: the URL decomposer -/

/-- Counterexample to claim C3 as stated: a URL with a non-empty path and
no query string but with a fragment has `file_url` different from the
input, although the scheme and authority are already in normalized form. -/
theorem C3_counterexample :
    (urlparse "https://h/a/b#f").path ≠ "" ∧
    (urlparse "https://h/a/b#f").query = "" ∧
    (split_url "https://h/a/b#f").file_url = "https://h/a/b" ∧
    (split_url "https://h/a/b#f").file_url ≠ "https://h/a/b#f" := by
  refine ⟨by decide, by decide, by decide, by decide⟩

/-- Claim C3 (amended): `split_url` keeps the query string and fragment out
of `file_url` and removes the last `/`-segment for `base_url`; the concrete
contract example holds; and for every URL built as scheme `://` authority
`/…`-path with a lowercase valid scheme, delimiter-free authority, and a
`/`-initial path free of `?`, `#`, `;` and whitespace, `file_url` equals
the input URL and `base_url` is a strict prefix of `file_url` ending
exactly one segment earlier. -/
theorem C3_split_url (s h p : String)
    (hs0 : s.data ≠ [])
    (hs1 : (s.data.headD ' ').isAlpha = true)
    (hs2 : ∀ c ∈ s.data, schemeChar c = true ∧ Char.toLower c = c)
    (hh : ∀ c ∈ h.data, notNetlocDelim c = true ∧ c ≠ '\t' ∧ c ≠ '\r' ∧ c ≠ '\n')
    (hp0 : p.data.take 1 = ['/'])
    (hp1 : ∀ c ∈ p.data,
      c ≠ '?' ∧ c ≠ '#' ∧ c ≠ ';' ∧ c ≠ '\t' ∧ c ≠ '\r' ∧ c ≠ '\n') :
    (split_url (s ++ "://" ++ h ++ p)).file_url = s ++ "://" ++ h ++ p ∧
    (split_url (s ++ "://" ++ h ++ p)).file_url =
      (split_url (s ++ "://" ++ h ++ p)).base_url ++ "/" ++
        get_file_name_from_url (s ++ "://" ++ h ++ p) ∧
    (¬ '/' ∈ (get_file_name_from_url (s ++ "://" ++ h ++ p)).data) ∧
    (split_url (s ++ "://" ++ h ++ p)).base_url.length <
      (split_url (s ++ "://" ++ h ++ p)).file_url.length ∧
    split_url "https://h/a/b/c.ext?x=1&y=2" =
      ⟨"https://h/a/b", "https://h/a/b/c.ext"⟩ := by
  have hp0x : ∃ t, p.data = '/' :: t := by
    cases hpd : p.data with
    | nil =>
      rw [hpd] at hp0
      simp at hp0
    | cons a t =>
      rw [hpd] at hp0
      have ha : a = '/' := by simpa using hp0
      exact ⟨t, by rw [ha]⟩
  have hurl : s ++ "://" ++ h ++ p =
      String.mk (s.data ++ ':' :: '/' :: '/' :: (h.data ++ p.data)) := by
    apply string_ext
    simp [String.data_append, show ("://" : String).data = [':', '/', '/'] from rfl,
      List.append_assoc]
  have hparse : urlparse (s ++ "://" ++ h ++ p) =
      ⟨s, h, p, "", "", ""⟩ := by
    rw [hurl]
    rw [urlparse_wellformed s.data h.data p.data hs0 hs1 (fun c hc => (hs2 c hc).1) hh
      (Or.inr hp0x)
      (fun c hc => ⟨(hp1 c hc).1, (hp1 c hc).2.1, (hp1 c hc).2.2.2.1,
        (hp1 c hc).2.2.2.2.1, (hp1 c hc).2.2.2.2.2⟩)
      (fun c hc => (hp1 c hc).2.2.1)]
    rw [map_id_of_all s.data (fun c hc => (hs2 c hc).2)]
  obtain ⟨t, ht⟩ := hp0x
  have hdecomp := split_url_decomp (s ++ "://" ++ h ++ p)
    ⟨t, by rw [hparse]; exact ht⟩
  obtain ⟨hd1, hd2, hd3, _, hd5⟩ := hdecomp
  refine ⟨?_, hd1, hd2, hd5, by decide⟩
  apply string_ext
  rw [hparse] at hd3
  rw [hd3]
  conv_rhs => rw [hurl]
  simp [List.append_assoc]

/-- Witness for C3 (amended) at concrete components. -/
theorem C3_split_url_witness :
    (split_url ("https" ++ "://" ++ "h" ++ "/a/b/c.ext")).file_url =
      "https" ++ "://" ++ "h" ++ "/a/b/c.ext" ∧
    split_url "https://h/a/b/c.ext?x=1&y=2" =
      ⟨"https://h/a/b", "https://h/a/b/c.ext"⟩ := by
  have h := C3_split_url "https" "h" "/a/b/c.ext" (by decide) (by decide) (by decide)
    (by decide) (by decide) (by decide)
  exact ⟨h.1, h.2.2.2.2⟩

/-- Counterexample to claim C4 as stated: the valid absolute URL
`https://h` (whose path is empty) is split into
`base_url = "https:/"`, which is not a valid scheme-authority-path URL. -/
theorem C4_counterexample :
    split_url "https://h" = ⟨"https:/", "https://h"⟩ ∧
    isSchemeAuthorityPathUrl "https://h" = true ∧
    isSchemeAuthorityPathUrl "https:/" = false := by
  refine ⟨by decide, by rfl, by rfl⟩

/-- Claim C4 (amended): for every input URL whose parsed scheme, authority
and path are non-empty, the SplitURL invariant holds: `file_url` is
`base_url ++ "/" ++` the final path segment of the input, and both
components are valid scheme-authority-path URL strings. -/
theorem C4_invariant (url : String)
    (hs : (urlparse url).scheme.data ≠ [])
    (hn : (urlparse url).netloc.data ≠ [])
    (hp : (urlparse url).path.data ≠ []) :
    ((split_url url).file_url =
      (split_url url).base_url ++ "/" ++ get_file_name_from_url url) ∧
    isSchemeAuthorityPathUrl (split_url url).file_url = true ∧
    isSchemeAuthorityPathUrl (split_url url).base_url = true := by
  obtain ⟨hsch_shape, hnet_shape, hpath_shape, hhead⟩ := urlsplit_shape url
  have hseq : (urlparse url).scheme.data = (urlsplit url).scheme.data := by
    rw [urlparse_scheme]
  have hneq : (urlparse url).netloc.data = (urlsplit url).netloc.data := by
    rw [urlparse_netloc]
  have hs2 : (urlsplit url).scheme.data ≠ [] := by rw [← hseq]; exact hs
  have hn2 : (urlsplit url).netloc.data ≠ [] := by rw [← hneq]; exact hn
  have hsch : (urlsplit url).scheme.data ≠ [] ∧
      ((urlsplit url).scheme.data.headD ' ').isAlpha = true ∧
      ∀ c ∈ (urlsplit url).scheme.data, schemeChar c = true := by
    rcases hsch_shape with hempty | hprops
    · exact absurd (congrArg String.data hempty) hs2
    · exact hprops
  have hups : ∃ t, (urlsplit url).path.data = '/' :: t := by
    rcases hhead hn2 with hnil | h1
    · exfalso
      apply hp
      rw [List.eq_nil_iff_forall_not_mem]
      intro a ha
      have hmem := (urlparse_path_shape url).1 a ha
      rw [hnil] at hmem
      simp at hmem
    · exact h1
  obtain ⟨t, ht⟩ := hups
  obtain ⟨t2, ht2⟩ := (urlparse_path_shape url).2 t ht
  obtain ⟨hd1, hd2, hd3, ⟨q, hq1, hq2, hq3⟩, hd5⟩ :=
    split_url_decomp url ⟨t2, ht2⟩
  have hPprops : ∀ c ∈ (urlparse url).path.data, c ≠ '?' ∧ c ≠ '#' :=
    fun c hc => hpath_shape c ((urlparse_path_shape url).1 c hc)
  refine ⟨hd1, ?_, ?_⟩
  · have hfe : (split_url url).file_url = String.mk
        ((urlparse url).scheme.data ++ ':' :: '/' :: '/' ::
          ((urlparse url).netloc.data ++ (urlparse url).path.data)) := by
      apply string_ext
      rw [hd3]
      simp [List.append_assoc]
    rw [hfe]
    apply isSchemeAuthorityPathUrl_concat
    · exact hs
    · rw [hseq]; exact hsch.2.1
    · intro c hc
      exact hsch.2.2 c (hseq ▸ hc)
    · exact hn
    · intro c hc
      exact hnet_shape c (hneq ▸ hc)
    · exact hPprops
    · exact Or.inr ⟨t2, ht2⟩
  · have hbe : (split_url url).base_url = String.mk
        ((urlparse url).scheme.data ++ ':' :: '/' :: '/' ::
          ((urlparse url).netloc.data ++ q)) := by
      apply string_ext
      rw [hq1]
      simp [List.append_assoc]
    rw [hbe]
    apply isSchemeAuthorityPathUrl_concat
    · exact hs
    · rw [hseq]; exact hsch.2.1
    · intro c hc
      exact hsch.2.2 c (hseq ▸ hc)
    · exact hn
    · intro c hc
      exact hnet_shape c (hneq ▸ hc)
    · exact fun c hc => hPprops c (hq3 c hc)
    · exact hq2

/-- Witness for C4 (amended) at a concrete URL (with a query string, which
the invariant strips). -/
theorem C4_invariant_witness :
    (split_url "https://h/a/b/c.ext?x=1").file_url =
      (split_url "https://h/a/b/c.ext?x=1").base_url ++ "/" ++
        get_file_name_from_url "https://h/a/b/c.ext?x=1" ∧
    isSchemeAuthorityPathUrl (split_url "https://h/a/b/c.ext?x=1").file_url = true ∧
    isSchemeAuthorityPathUrl (split_url "https://h/a/b/c.ext?x=1").base_url = true :=
  C4_invariant "https://h/a/b/c.ext?x=1" (by decide) (by decide) (by decide)

end FanslyWeb
